import Mathlib

/-!
# Verification of the drifters core against its specification

Shallow embedding of the core algorithms of the `drifters` configuration-file
replicator:

* `intelligent_merge` (src/merge/intelligent.rs) — the consensus merger.
  The Rust function receives a `HashMap<String, MachineVersion>`; we embed the
  map as an association list `List (String × MachineVersion)` whose order
  models the (arbitrary) iteration order of the hash map, with the keys
  (machine ids) pairwise distinct.
* `extract_syncable_content`, `merge_synced_content`,
  `extract_exclude_sections` (src/parser/sections.rs) — the section codec.
  The Rust code walks `content.lines()`; we model strings at the character
  level (`List Char`), with `linesOf` an embedding of Rust `str::lines`.
* `resolve_fileset`, `matches_any_pattern`, `expand_tilde`
  (src/config/fileset.rs) — the fileset resolver.  The filesystem glob
  expansion (`glob::glob`) is an oracle parameter `fsGlob`; the home
  directory (`dirs::home_dir()`) is a parameter `home`; `glob::Pattern`
  matching with default options is embedded as `globChars` for patterns
  built from literal characters, `*` and `?` (character classes are not
  modelled; none of the verified properties depends on them).
* the working-copy lock (src/git/ephemeral.rs) — the filesystem lock state is
  embedded as `Option LockFile` (presence of the lock file plus its mtime
  age); `try_acquire_lock` / `acquire_lock` are embedded as explicit state
  transformers under the assumption that no other process mutates the state.
-/

deriving instance DecidableEq for Except

namespace Drifters

/-- Embedding of the error enum `DriftersError` (src/error.rs); only the
variants reachable from the embedded functions are kept. -/
inductive DriftersError where
  | Config : String → DriftersError
  | Io : String → DriftersError
deriving DecidableEq

/-- `MachineVersion` (src/git/mod.rs): one machine's copy of one file plus the
commit timestamp of its last push; `committed_at = none` means "no git
history". Timestamps are `u64` in Rust, embedded as `Nat`. -/
structure MachineVersion where
  content : String
  committed_at : Option Nat
deriving DecidableEq

/-- Rust's `&str` ordering is byte-wise lexicographic over UTF-8, which agrees
with lexicographic comparison of the code points; `leChars` embeds it on the
character lists. -/
def leChars : List Char → List Char → Bool
  | [], _ => true
  | _ :: _, [] => false
  | a :: as, b :: bs => if a = b then leChars as bs else decide (a < b)

/-- `a <= b` on Rust `&str` / `String`. -/
def str_le (a b : String) : Bool := leChars a.data b.data

/-- The effective timestamp of a version: `committed_at.unwrap_or(0)`
(src/merge/intelligent.rs, lines 43 and 50). -/
def effectiveTs (v : MachineVersion) : Nat := v.committed_at.getD 0

/-- `max_ts`: the maximum effective timestamp across all entries
(src/merge/intelligent.rs, lines 41-45); `.max().unwrap_or(0)` on a list of
naturals is the fold of `max` with base `0`. -/
def maxTs (l : List (String × MachineVersion)) : Nat :=
  (l.map (fun p => effectiveTs p.2)).foldr max 0

/-- `winners`: the entries tied at the maximum effective timestamp
(src/merge/intelligent.rs, lines 48-52). -/
def tiedWinners (l : List (String × MachineVersion)) : List (String × MachineVersion) :=
  l.filter (fun p => effectiveTs p.2 == maxTs l)

/-- `all_versions.values().next().unwrap().content` — the content of the first
entry in iteration order (total, with a default for the empty list that the
call sites never reach). -/
def firstContent (l : List (String × MachineVersion)) : String :=
  (l.head?.map (fun p => p.2.content)).getD ""

/-- Embedding of `intelligent_merge` (src/merge/intelligent.rs, lines 17-85).

The input association list stands for the `HashMap` in its iteration order.
The unused `_filename` / `_app_config` parameters of the Rust function are
dropped.  The final Rust step `winners.sort_by_key(|(_, content)| *content);
winners[0].1` (stable sort by content, then take the first element's content)
is embedded as: sort the winners' content strings by the Rust string order
and take the head — the same string, namely the lexicographically smallest
content among the winners. -/
def intelligent_merge (all_versions : List (String × MachineVersion))
    (current_machine_id : String) : Except DriftersError String :=
  if all_versions.isEmpty then
    .error (.Config "No versions available to merge")
  -- Single version — nothing to decide
  else if all_versions.length == 1 then
    .ok (firstContent all_versions)
  -- All versions identical — use any
  else if all_versions.all (fun p => p.2.content == firstContent all_versions) then
    .ok (firstContent all_versions)
  -- Exactly one winner at the maximum effective timestamp — done
  else if (tiedWinners all_versions).length == 1 then
    .ok (firstContent (tiedWinners all_versions))
  else
    -- Tiebreak 1: prefer the current machine if it is among the winners
    match (tiedWinners all_versions).find? (fun p => p.1 == current_machine_id) with
    | some p => .ok p.2.content
    -- Tiebreak 2: lexicographically smallest content
    | none =>
      .ok ((((tiedWinners all_versions).map (fun p => p.2.content)).insertionSort
        (fun a b => str_le a b = true)).headD "")

/-! ### Section codec (src/parser/sections.rs)

Strings are modelled at the character level (`String.data : List Char`).
`linesOf` embeds Rust `str::lines`: split at `'\n'`, strip one `'\r'` from the
end of a line that was terminated by `'\n'`, and do not yield a final empty
line for input ending in `'\n'`.  The Rust loops that `push_str` each kept
line followed by `push('\n')` are embedded as structural recursions that
produce the same character sequence. -/

/-- Strip one trailing carriage return (the `\r` of a `\r\n` line ending). -/
def stripCR (l : List Char) : List Char :=
  if l.getLast? = some '\r' then l.dropLast else l

/-- Worker for `linesOf`; `acc` holds the current line reversed. -/
def linesOfAux : List Char → List Char → List (List Char)
  | [], acc => if acc.isEmpty then [] else [acc.reverse]
  | c :: cs, acc =>
    if c = '\n' then stripCR acc.reverse :: linesOfAux cs []
    else linesOfAux cs (c :: acc)

/-- Rust `str::lines` on the character list. -/
def linesOf (s : List Char) : List (List Char) := linesOfAux s []

/-- Join lines, appending `'\n'` after every line — the `push_str(line);
push('\n')` pattern of the Rust loops. -/
def joinNL : List (List Char) → List Char
  | [] => []
  | l :: ls => l ++ '\n' :: joinNL ls

/-- Rust `str::trim` on the character list (ASCII whitespace). -/
def trimL (l : List Char) : List Char :=
  ((l.dropWhile Char.isWhitespace).reverse.dropWhile Char.isWhitespace).reverse

/-- Rust `str::starts_with` on character lists. -/
def isPrefixL : List Char → List Char → Bool
  | [], _ => true
  | _ :: _, [] => false
  | p :: ps, c :: cs => p == c && isPrefixL ps cs

/-- The line-scanning loop of `extract_syncable_content`
(src/parser/sections.rs, lines 13-36): returns the kept lines, or `none` when
the scan ends inside an exclude block (the unclosed-tag error, lines
40-46). -/
def extractGo (st sp : List Char) : List (List Char) → Bool → Option (List (List Char))
  | [], inB => if inB then none else some []
  | l :: ls, inB =>
    if isPrefixL st (trimL l) then (extractGo st sp ls true).map (fun r => l :: r)
    else if isPrefixL sp (trimL l) then (extractGo st sp ls false).map (fun r => l :: r)
    else if inB then extractGo st sp ls inB
    else (extractGo st sp ls inB).map (fun r => l :: r)

/-- Embedding of `extract_syncable_content` (src/parser/sections.rs,
lines 5-54).  `found_any_tags` is set exactly by the lines taking the
start-tag branch, i.e. it equals `ls.any (isPrefixL start ∘ trimL)`. -/
def extract_syncable_content (content comment_syn : String) :
    Except DriftersError (Option String) :=
  let exclude_start := comment_syn ++ " drifters::exclude::start"
  let exclude_stop := comment_syn ++ " drifters::exclude::stop"
  let ls := linesOf content.data
  match extractGo exclude_start.data exclude_stop.data ls false with
  | none =>
    .error (.Config
      "unclosed drifters::exclude::start block (missing drifters::exclude::stop)")
  | some kept =>
    if ls.any (fun l => isPrefixL exclude_start.data (trimL l)) then
      .ok (some (String.mk (joinNL kept)))
    else
      -- No tags found, sync entire file
      .ok none

/-- The line-scanning loop of `extract_exclude_sections`
(src/parser/sections.rs, lines 121-144): `cur` is `current_section` (cleared
at a start tag, pushed at a stop tag, and *not* cleared after a push, exactly
as in the Rust). `none` is the unclosed-tag error (lines 148-154). -/
def sectionsGo (st sp : List Char) :
    List (List Char) → Bool → List Char → Option (List (List Char))
  | [], inS, _ => if inS then none else some []
  | l :: ls, inS, cur =>
    if isPrefixL st (trimL l) then
      sectionsGo st sp ls true (l ++ ['\n'])
    else if isPrefixL sp (trimL l) then
      (sectionsGo st sp ls false (cur ++ l ++ ['\n'])).map
        (fun r => (cur ++ l ++ ['\n']) :: r)
    else if inS then sectionsGo st sp ls true (cur ++ l ++ ['\n'])
    else sectionsGo st sp ls inS cur

/-- Embedding of `extract_exclude_sections` (src/parser/sections.rs,
lines 112-157). -/
def extract_exclude_sections (content start_tag stop_tag : String) :
    Except DriftersError (List String) :=
  match sectionsGo start_tag.data stop_tag.data (linesOf content.data) false [] with
  | none =>
    .error (.Config
      "unclosed drifters::exclude::start block (missing drifters::exclude::stop)")
  | some secs => .ok (secs.map String.mk)

/-- The line-scanning loop of `merge_synced_content` (src/parser/sections.rs,
lines 73-106): `excl` is `local_excludes`, `idx` is `exclude_index`. -/
def mergeGo (st sp : List Char) (excl : List (List Char)) :
    List (List Char) → Bool → Nat → List Char
  | [], _, _ => []
  | l :: ls, inB, idx =>
    if isPrefixL st (trimL l) then
      -- Use local exclude section if it exists
      match excl.get? idx with
      | some local_exclude => local_exclude ++ mergeGo st sp excl ls true (idx + 1)
      | none => l ++ '\n' :: mergeGo st sp excl ls true idx
    else if isPrefixL sp (trimL l) then
      -- Skip stop tag if we already included it with local content
      if 0 < idx ∧ (excl.get? (idx - 1)).isSome then mergeGo st sp excl ls false idx
      else l ++ '\n' :: mergeGo st sp excl ls false idx
    else if inB then mergeGo st sp excl ls inB idx
    else l ++ '\n' :: mergeGo st sp excl ls inB idx

/-- Embedding of `merge_synced_content` (src/parser/sections.rs,
lines 58-109). -/
def merge_synced_content (local_content synced_content comment_syn : String) :
    Except DriftersError String :=
  let exclude_start := comment_syn ++ " drifters::exclude::start"
  let exclude_stop := comment_syn ++ " drifters::exclude::stop"
  match extract_exclude_sections local_content exclude_start exclude_stop with
  | .error e => .error e
  | .ok local_excludes =>
    .ok (String.mk (mergeGo exclude_start.data exclude_stop.data
      (local_excludes.map String.data) (linesOf synced_content.data) false 0))

/-- Well-formed line sequences: content lines where exclude tags strictly
alternate — every start tag opens a block of non-tag body lines closed by a
stop tag — with no stray stop tag and no unclosed start tag.  A line is a
start (resp. stop) tag exactly when the tag is a prefix of the trimmed line,
as in the Rust `trimmed.starts_with(...)` checks. -/
inductive WFLines (st sp : List Char) : List (List Char) → Prop
  | nil : WFLines st sp []
  | other {l ls} : isPrefixL st (trimL l) = false → isPrefixL sp (trimL l) = false →
      WFLines st sp ls → WFLines st sp (l :: ls)
  | block {s body e rest} : isPrefixL st (trimL s) = true →
      (∀ b ∈ body, isPrefixL st (trimL b) = false ∧ isPrefixL sp (trimL b) = false) →
      isPrefixL st (trimL e) = false → isPrefixL sp (trimL e) = true →
      WFLines st sp rest → WFLines st sp (s :: (body ++ e :: rest))

/-! ### Fileset resolver (src/config/fileset.rs)

The filesystem is abstracted by the oracle `fsGlob : String → List String`
standing for `glob::glob(pattern)` restricted to its `Ok` paths (the existing
paths matching the expanded pattern); `home` stands for `dirs::home_dir()`.
Paths are path strings.  `glob::Pattern::matches_path` with default options
is embedded by `globChars` for patterns built from literal characters, `*`
and `?` (`Pattern::new` is modelled as always succeeding, which is exact for
patterns without character classes). -/

/-- `MachineOverride` (src/config/sync_rules.rs, lines 50-57). -/
structure MachineOverride where
  «include» : List String
  exclude : List String
deriving DecidableEq

/-- `AppConfig` (src/config/sync_rules.rs, lines 11-48); the `machines`
HashMap is an association list. -/
structure AppConfig where
  «include» : List String
  exclude : List String
  include_macos : List String
  include_linux : List String
  include_windows : List String
  exclude_macos : List String
  exclude_linux : List String
  exclude_windows : List String
  machines : List (String × MachineOverride)
deriving DecidableEq

/-- `glob::Pattern` matching (default `MatchOptions`, where `*` and `?` also
match the path separator) for patterns made of literals, `*` and `?`:
`*` matches when the rest of the pattern matches some suffix of the text. -/
def globChars : List Char → List Char → Bool
  | [], s => s.isEmpty
  | p :: ps, s =>
    if p = '*' then s.tails.any (fun suffix => globChars ps suffix)
    else if p = '?' then
      match s with
      | [] => false
      | _ :: cs => globChars ps cs
    else
      match s with
      | [] => false
      | c :: cs => p == c && globChars ps cs

/-- Embedding of `expand_tilde` (src/config/fileset.rs, lines 100-107):
`home.join(&path[2..])` appends the path separator; `path[2..]` drops the two
one-byte characters `~/`. -/
def expand_tilde (home path : String) : String :=
  if isPrefixL "~/".data path.data then home ++ "/" ++ String.mk (path.data.drop 2)
  else path

/-- Rust `str::contains` (substring test) on character lists. -/
def isSubL (pat : List Char) : List Char → Bool
  | [] => pat.isEmpty
  | c :: cs => isPrefixL pat (c :: cs) || isSubL pat cs

/-- Embedding of `matches_any_pattern` (src/config/fileset.rs, lines 79-97):
a path is excluded if it glob-matches the tilde-expanded pattern OR contains
the raw pattern as a substring. -/
def matches_any_pattern (home path : String) (patterns : List String) : Bool :=
  patterns.any (fun pattern =>
    globChars (expand_tilde home pattern).data path.data
    || isSubL pattern.data path.data)

/-- The additive include-pattern assembly of `resolve_fileset`
(src/config/fileset.rs, lines 12-42): app tier, then OS tier, then machine
override. -/
def combined_includes (app_config : AppConfig) (machine_id os : String) : List String :=
  app_config.«include»
    ++ (match os with
        | "macos" => app_config.include_macos
        | "linux" => app_config.include_linux
        | "windows" => app_config.include_windows
        | _ => [])
    ++ (match app_config.machines.find? (fun p => p.1 == machine_id) with
        | some m => m.2.«include»
        | none => [])

/-- The additive exclude-pattern assembly of `resolve_fileset`
(src/config/fileset.rs, lines 12-42). -/
def combined_excludes (app_config : AppConfig) (machine_id os : String) : List String :=
  app_config.exclude
    ++ (match os with
        | "macos" => app_config.exclude_macos
        | "linux" => app_config.exclude_linux
        | "windows" => app_config.exclude_windows
        | _ => [])
    ++ (match app_config.machines.find? (fun p => p.1 == machine_id) with
        | some m => m.2.exclude
        | none => [])

/-- Rust `Vec::dedup`: remove consecutive duplicates. -/
def dedupConsec : List String → List String
  | [] => []
  | [a] => [a]
  | a :: b :: rest => if a = b then dedupConsec (b :: rest) else a :: dedupConsec (b :: rest)

/-- Embedding of `resolve_fileset` (src/config/fileset.rs, lines 7-76): glob
every include pattern, keep the paths excluded by no exclude pattern, then
`files.sort(); files.dedup()` (the Rust `Result` is always `Ok` and is
dropped).  Paths are compared by the Rust string order. -/
def resolve_fileset (home : String) (fsGlob : String → List String)
    (app_config : AppConfig) (machine_id os : String) : List String :=
  dedupConsec
    (((combined_includes app_config machine_id os).flatMap (fun pattern =>
        (fsGlob (expand_tilde home pattern)).filter
          (fun path => !(matches_any_pattern home path
            (combined_excludes app_config machine_id os))))).insertionSort
      (fun a b => str_le a b = true))

/-- The app definition of the spec's fileset-override scenario: app include
`["~/t/*.txt"]`, machine override exclude `["~/t/secret.txt"]`. -/
def secret_app (machine_id : String) : AppConfig :=
  ⟨["~/t/*.txt"], [], [], [], [], [], [], [],
    [(machine_id, ⟨[], ["~/t/secret.txt"]⟩)]⟩

/-! ### Working-copy lock (src/git/ephemeral.rs)

The filesystem state at the lock path is `Option LockFile`: `none` when no
lock file exists, `some f` when it exists with content `f.pid` and an mtime
`f.age_secs` seconds in the past at the moment the operation runs.  The
embedded `try_acquire_lock` and `acquire_lock` are state transformers under
the assumption that no other process touches the lock path: the atomic
`create_new` succeeds exactly when no file exists, and after removing a
stale file the retried `create_new` succeeds.  One loop iteration of
`acquire_lock` advances time by the one-second sleep (`ageLock`). -/

def LOCK_TIMEOUT_SECS : Nat := 30

def LOCK_STALE_SECS : Nat := 300

/-- The lock file on disk: content (`pid`) plus age of its mtime in seconds. -/
structure LockFile where
  pid : Nat
  age_secs : Nat
deriving DecidableEq

/-- Embedding of `is_stale_lock` (src/git/ephemeral.rs, lines 87-96): a
missing file (metadata error) is not stale; otherwise stale iff strictly
older than `LOCK_STALE_SECS`. -/
def is_stale_lock : Option LockFile → Bool
  | some f => decide (f.age_secs > LOCK_STALE_SECS)
  | none => false

/-- Embedding of `try_acquire_lock` (src/git/ephemeral.rs, lines 54-84) with
no interfering process: returns the new filesystem state and the `Ok(bool)`
result.  `create_new` succeeds on a missing file; an existing stale file is
removed and the single retry of `create_new` then succeeds; an existing
fresh file leaves the state unchanged and reports `false`. -/
def try_acquire_lock (fs : Option LockFile) (pid : Nat) : Option LockFile × Bool :=
  match fs with
  | none => (some ⟨pid, 0⟩, true)
  | some f =>
    if is_stale_lock (some f) then (some ⟨pid, 0⟩, true)
    else (some f, false)

/-- One second of waiting: the existing lock file's mtime ages by one. -/
def ageLock : Option LockFile → Option LockFile :=
  Option.map (fun f => ⟨f.pid, f.age_secs + 1⟩)

/-- Embedding of `acquire_lock` (src/git/ephemeral.rs, lines 99-124):
`elapsed` is `start.elapsed().as_secs()`; each failed attempt sleeps one
second (the Rust message also formats the lock path; the printing of the
one-time waiting notice is not modelled). -/
def acquire_lock (pid : Nat) (fs : Option LockFile) (elapsed : Nat) :
    Except DriftersError (Option LockFile) :=
  if (try_acquire_lock fs pid).2 then .ok (try_acquire_lock fs pid).1
  else if elapsed ≥ LOCK_TIMEOUT_SECS then
    .error (.Config
      ("Timed out waiting for another drifters process to finish (lock file)."
        ++ " If no other process is running, delete the lock file manually."))
  else acquire_lock pid (ageLock fs) (elapsed + 1)
termination_by LOCK_TIMEOUT_SECS + 1 - elapsed
decreasing_by
  rename_i h
  simp only [not_le] at h
  omega

/-! ### The embedded string order is a linear order -/

theorem leChars_refl : ∀ a : List Char, leChars a a = true
  | [] => rfl
  | a :: as => by simp [leChars, leChars_refl as]

theorem leChars_total : ∀ a b : List Char, leChars a b = true ∨ leChars b a = true
  | [], _ => .inl rfl
  | _ :: _, [] => .inr rfl
  | a :: as, b :: bs => by
    by_cases hab : a = b
    · subst hab
      simpa [leChars] using leChars_total as bs
    · rcases lt_or_gt_of_ne hab with h | h
      · left; simp [leChars, hab, h]
      · right; simp [leChars, Ne.symm hab, h]

theorem leChars_trans :
    ∀ a b c : List Char, leChars a b = true → leChars b c = true → leChars a c = true
  | [], _, _, _, _ => rfl
  | _ :: _, [], _, h1, _ => by simp [leChars] at h1
  | _ :: _, _ :: _, [], _, h2 => by simp [leChars] at h2
  | a :: as, b :: bs, c :: cs, h1, h2 => by
    by_cases hab : a = b <;> by_cases hbc : b = c
    · subst hab; subst hbc
      simp only [leChars, if_pos rfl] at h1 h2 ⊢
      exact leChars_trans as bs cs h1 h2
    · subst hab
      simp only [leChars, if_pos rfl, if_neg hbc] at h1 h2 ⊢
      exact h2
    · subst hbc
      simp only [leChars, if_neg hab] at h1 ⊢
      exact h1
    · simp only [leChars, if_neg hab, if_neg hbc, decide_eq_true_eq] at h1 h2
      have hac : a < c := lt_trans h1 h2
      simp [leChars, ne_of_lt hac, hac]

theorem leChars_antisymm :
    ∀ a b : List Char, leChars a b = true → leChars b a = true → a = b
  | [], [], _, _ => rfl
  | _ :: _, [], h1, _ => by simp [leChars] at h1
  | [], _ :: _, _, h2 => by simp [leChars] at h2
  | a :: as, b :: bs, h1, h2 => by
    by_cases hab : a = b
    · subst hab
      simp only [leChars, if_pos rfl] at h1 h2
      rw [leChars_antisymm as bs h1 h2]
    · simp only [leChars, if_neg hab, if_neg (Ne.symm hab), decide_eq_true_eq] at h1 h2
      exact absurd h2 (not_lt_of_gt h1)

theorem String.data_inj : ∀ {a b : String}, a.data = b.data → a = b
  | ⟨_⟩, ⟨_⟩, rfl => rfl

instance : IsTotal String (fun a b => str_le a b = true) :=
  ⟨fun a b => leChars_total a.data b.data⟩

instance : IsTrans String (fun a b => str_le a b = true) :=
  ⟨fun a b c => leChars_trans a.data b.data c.data⟩

instance : IsAntisymm String (fun a b => str_le a b = true) :=
  ⟨fun a b h1 h2 => String.data_inj (leChars_antisymm a.data b.data h1 h2)⟩

instance : LeftCommutative (max : Nat → Nat → Nat) :=
  ⟨fun a b c => max_left_comm a b c⟩

/-! ### Helper lemmas about association lists with distinct keys -/

/-- In a list whose keys are pairwise distinct, two members with equal keys
are the same pair. -/
theorem pair_eq_of_nodup_keys {α β : Type} {l : List (α × β)}
    (h : (l.map Prod.fst).Nodup) :
    ∀ p ∈ l, ∀ q ∈ l, p.1 = q.1 → p = q := by
  induction l with
  | nil => intro p hp; cases hp
  | cons a t ih =>
    rw [List.map_cons, List.nodup_cons] at h
    intro p hp q hq hpq
    rcases List.mem_cons.mp hp with hpa | hpt
    · rcases List.mem_cons.mp hq with hqa | hqt
      · rw [hpa, hqa]
      · subst hpa
        exact absurd (by rw [hpq]; exact List.mem_map_of_mem Prod.fst hqt) h.1
    · rcases List.mem_cons.mp hq with hqa | hqt
      · subst hqa
        exact absurd (by rw [← hpq]; exact List.mem_map_of_mem Prod.fst hpt) h.1
      · exact ih h.2 p hpt q hqt hpq

/-- `find?` over a permutation returns the same result when the predicate can
hold of at most one element. -/
theorem find?_eq_of_perm_of_unique {α : Type} {p : α → Bool} {l₁ l₂ : List α}
    (hperm : l₁.Perm l₂)
    (huniq : ∀ a ∈ l₁, ∀ b ∈ l₁, p a = true → p b = true → a = b) :
    l₁.find? p = l₂.find? p := by
  cases h1 : l₁.find? p with
  | none =>
    cases h2 : l₂.find? p with
    | none => rfl
    | some y =>
      have hy : y ∈ l₁ := hperm.mem_iff.mpr (List.mem_of_find?_eq_some h2)
      exact absurd (List.find?_some h2) (by simpa using List.find?_eq_none.mp h1 y hy)
  | some x =>
    have hx : x ∈ l₂ := hperm.mem_iff.mp (List.mem_of_find?_eq_some h1)
    cases h2 : l₂.find? p with
    | none =>
      exact absurd (List.find?_some h1) (by simpa using List.find?_eq_none.mp h2 x hx)
    | some y =>
      have hy : y ∈ l₁ := hperm.mem_iff.mpr (List.mem_of_find?_eq_some h2)
      rw [huniq x (hperm.mem_iff.mpr hx) y hy (List.find?_some h1) (List.find?_some h2)]

/-! ### Branch evaluation lemmas for `intelligent_merge` -/

theorem str_le_refl (a : String) : str_le a a = true := leChars_refl a.data

theorem tiedWinners_subset {l : List (String × MachineVersion)} :
    ∀ p ∈ tiedWinners l, p ∈ l := fun _ hp => (List.mem_filter.mp hp).1

theorem tiedWinners_singleton (p : String × MachineVersion) : tiedWinners [p] = [p] := by
  simp [tiedWinners, maxTs, effectiveTs]

theorem intelligent_merge_singleton (p : String × MachineVersion) (cur : String) :
    intelligent_merge [p] cur = .ok p.2.content := rfl

theorem intelligent_merge_all_eq (l : List (String × MachineVersion)) (cur : String)
    (hne : l ≠ []) (c : String) (hc : ∀ p ∈ l, p.2.content = c) :
    intelligent_merge l cur = .ok c := by
  cases l with
  | nil => exact absurd rfl hne
  | cons a t =>
    have hfc : firstContent (a :: t) = c := hc a (List.mem_cons_self a t)
    unfold intelligent_merge
    rw [if_neg (by simp)]
    by_cases h1 : (a :: t).length == 1
    · rw [if_pos h1, hfc]
    · rw [if_neg h1, if_pos, hfc]
      rw [List.all_eq_true]
      intro p hp
      rw [beq_iff_eq, hc p hp, hfc]

theorem intelligent_merge_contested (l : List (String × MachineVersion)) (cur : String)
    (hne : l ≠ []) (h1 : l.length ≠ 1)
    (h2 : ¬ ∀ p ∈ l, p.2.content = firstContent l) :
    intelligent_merge l cur =
      if (tiedWinners l).length == 1 then
        .ok (firstContent (tiedWinners l))
      else
        match (tiedWinners l).find? (fun p => p.1 == cur) with
        | some p => .ok p.2.content
        | none =>
          .ok ((((tiedWinners l).map (fun p => p.2.content)).insertionSort
            (fun a b => str_le a b = true)).headD "") := by
  cases l with
  | nil => exact absurd rfl hne
  | cons a t =>
    unfold intelligent_merge
    rw [if_neg (by simp), if_neg (by simpa using h1), if_neg]
    intro hall
    exact h2 fun p hp => beq_iff_eq.mp (List.all_eq_true.mp hall p hp)

/-- C1: for every non-empty version map (with pairwise-distinct machine ids)
and every `current_machine_id`, `intelligent_merge` follows the spec's strict
decision order: (1) the sole entry's content for a one-entry map; (2) the
shared content when all entries' contents are identical, regardless of
timestamps; with `T = maxTs` the maximum effective timestamp
(`committed_at.unwrap_or(0)`): (3) the content of the unique entry at `T`;
(4) on a tie, the current machine's entry's content when that machine is
among the tied entries; (5) otherwise the lexicographically smallest content
string among the tied entries. -/
theorem intelligent_merge_decision_order
    (l : List (String × MachineVersion)) (cur : String)
    (hne : l ≠ []) (hnd : (l.map Prod.fst).Nodup) :
    (∀ m v, l = [(m, v)] → intelligent_merge l cur = .ok v.content) ∧
    (∀ c, (∀ p ∈ l, p.2.content = c) → intelligent_merge l cur = .ok c) ∧
    (∀ m v, tiedWinners l = [(m, v)] → intelligent_merge l cur = .ok v.content) ∧
    (2 ≤ (tiedWinners l).length →
      ∀ v, (cur, v) ∈ tiedWinners l → intelligent_merge l cur = .ok v.content) ∧
    (2 ≤ (tiedWinners l).length → (∀ v, (cur, v) ∉ tiedWinners l) →
      ∃ c, intelligent_merge l cur = .ok c
        ∧ c ∈ (tiedWinners l).map (fun p => p.2.content)
        ∧ ∀ c' ∈ (tiedWinners l).map (fun p => p.2.content), str_le c c' = true) := by
  have hWsub := @tiedWinners_subset l
  have hWlen : (tiedWinners l).length ≤ l.length := List.length_filter_le _ _
  refine ⟨?_, ?_, ?_, ?_, ?_⟩
  -- (1) singleton map
  · intro m v heq
    rw [heq]
    exact intelligent_merge_singleton (m, v) cur
  -- (2) all contents identical
  · intro c hc
    exact intelligent_merge_all_eq l cur hne c hc
  -- (3) unique entry at the maximum timestamp
  · intro m v hW
    by_cases h1 : l.length = 1
    · obtain ⟨p, hp⟩ := List.length_eq_one.mp h1
      have hp' : tiedWinners l = [p] := by rw [hp]; exact tiedWinners_singleton p
      rw [hW] at hp'
      obtain ⟨rfl, rfl⟩ : m = p.1 ∧ v = p.2 := by
        have := List.head_eq_of_cons_eq hp'
        exact ⟨congrArg Prod.fst this, congrArg Prod.snd this⟩
      rw [hp]
      exact intelligent_merge_singleton p cur
    · by_cases h2 : ∀ p ∈ l, p.2.content = firstContent l
      · have hv : (m, v) ∈ l := hWsub _ (by rw [hW]; exact List.mem_singleton.mpr rfl)
        rw [intelligent_merge_all_eq l cur hne (firstContent l) h2, h2 (m, v) hv]
      · rw [intelligent_merge_contested l cur hne h1 h2, hW]
        rfl
  -- (4) tie including the current machine
  · intro hlen v hv
    have h1 : l.length ≠ 1 := fun h1 => by omega
    by_cases h2 : ∀ p ∈ l, p.2.content = firstContent l
    · rw [intelligent_merge_all_eq l cur hne (firstContent l) h2, h2 (cur, v) (hWsub _ hv)]
    · rw [intelligent_merge_contested l cur hne h1 h2, if_neg (by simpa using by omega)]
      have hsome : ((tiedWinners l).find? (fun p => p.1 == cur)).isSome := by
        rw [List.find?_isSome]
        exact ⟨(cur, v), hv, by simp⟩
      obtain ⟨q, hq⟩ := Option.isSome_iff_exists.mp hsome
      have hqW : q ∈ tiedWinners l := List.mem_of_find?_eq_some hq
      have hq1 : q.1 = cur := by simpa using List.find?_some hq
      have : q = (cur, v) :=
        pair_eq_of_nodup_keys hnd q (hWsub _ hqW) (cur, v) (hWsub _ hv) (by rw [hq1])
      rw [hq, this]
  -- (5) tie excluding the current machine: lexicographically smallest content
  · intro hlen hnot
    have h1 : l.length ≠ 1 := fun h1 => by omega
    have hWne : tiedWinners l ≠ [] := by
      intro h
      rw [h] at hlen
      exact absurd hlen (by simp)
    by_cases h2 : ∀ p ∈ l, p.2.content = firstContent l
    · obtain ⟨w, hw⟩ := List.exists_mem_of_ne_nil _ hWne
      refine ⟨firstContent l, intelligent_merge_all_eq l cur hne (firstContent l) h2,
        List.mem_map.mpr ⟨w, hw, h2 w (hWsub _ hw)⟩, ?_⟩
      intro c' hc'
      obtain ⟨w', hw', rfl⟩ := List.mem_map.mp hc'
      rw [h2 w' (hWsub _ hw')]
      exact str_le_refl _
    · rw [intelligent_merge_contested l cur hne h1 h2, if_neg (by simpa using by omega)]
      have hfind : (tiedWinners l).find? (fun p => p.1 == cur) = none := by
        rw [List.find?_eq_none]
        rintro ⟨x1, x2⟩ hx hpx
        exact hnot x2 (by rwa [show x1 = cur by simpa using hpx] at hx)
      rw [hfind]
      have hperm := List.perm_insertionSort (fun a b => str_le a b = true)
        ((tiedWinners l).map (fun p => p.2.content))
      have hsorted := List.sorted_insertionSort (fun a b => str_le a b = true)
        ((tiedWinners l).map (fun p => p.2.content))
      cases hS : ((tiedWinners l).map (fun p => p.2.content)).insertionSort
          (fun a b => str_le a b = true) with
      | nil =>
        rw [hS] at hperm
        have := hperm.length_eq
        simp at this
        omega
      | cons c S' =>
        rw [hS] at hperm hsorted
        refine ⟨c, rfl, hperm.mem_iff.mp (List.mem_cons_self c S'), ?_⟩
        intro c' hc'
        rcases List.mem_cons.mp (hperm.mem_iff.mpr hc') with rfl | hmem
        · exact str_le_refl c'
        · exact List.rel_of_sorted_cons hsorted c' hmem

/-- C2: `intelligent_merge` is deterministic in the iteration order of its
input map: for two association lists holding the same set of
`(machine_id, content, committed_at)` entries (a permutation, with machine
ids pairwise distinct) and any `current_machine_id`, both runs return the
same result. -/
theorem intelligent_merge_deterministic
    (l₁ l₂ : List (String × MachineVersion)) (cur : String)
    (hperm : l₁.Perm l₂) (hnd : (l₁.map Prod.fst).Nodup) :
    intelligent_merge l₁ cur = intelligent_merge l₂ cur := by
  by_cases hnil : l₁ = []
  · subst hnil
    rw [List.Perm.eq_nil hperm.symm]
  · have hnil₂ : l₂ ≠ [] := fun h => hnil (List.Perm.eq_nil (h ▸ hperm))
    have hlen := hperm.length_eq
    have hmax : maxTs l₁ = maxTs l₂ := by
      unfold maxTs
      apply List.Perm.foldr_eq
      exact hperm.map (fun p => effectiveTs p.2)
    have hW : (tiedWinners l₁).Perm (tiedWinners l₂) := by
      unfold tiedWinners
      rw [hmax]
      exact hperm.filter _
    by_cases h1 : l₁.length = 1
    · obtain ⟨p, rfl⟩ := List.length_eq_one.mp h1
      rw [List.perm_singleton.mp hperm.symm]
    · by_cases h2 : ∀ p ∈ l₁, p.2.content = firstContent l₁
      · obtain ⟨b, t₂, rfl⟩ := List.exists_cons_of_ne_nil hnil₂
        have hc1 : firstContent (b :: t₂) = firstContent l₁ :=
          h2 b (hperm.mem_iff.mpr (List.mem_cons_self b t₂))
        have h2' : ∀ p ∈ b :: t₂, p.2.content = firstContent (b :: t₂) := fun p hp => by
          rw [hc1]
          exact h2 p (hperm.mem_iff.mpr hp)
        rw [intelligent_merge_all_eq l₁ cur hnil (firstContent l₁) h2,
          intelligent_merge_all_eq (b :: t₂) cur hnil₂ (firstContent (b :: t₂)) h2', hc1]
      · have h2' : ¬ ∀ p ∈ l₂, p.2.content = firstContent l₂ := by
          intro hall
          apply h2
          intro p hp
          rw [hall p (hperm.mem_iff.mp hp)]
          obtain ⟨a, t₁, h₁eq⟩ := List.exists_cons_of_ne_nil hnil
          have : firstContent l₁ = a.2.content := by rw [h₁eq]; rfl
          rw [this, hall a (hperm.mem_iff.mp (h₁eq ▸ List.mem_cons_self a t₁))]
        rw [intelligent_merge_contested l₁ cur hnil h1 h2,
          intelligent_merge_contested l₂ cur hnil₂ (hlen ▸ h1) h2']
        have hWlen : (tiedWinners l₁).length = (tiedWinners l₂).length := hW.length_eq
        by_cases hw1 : (tiedWinners l₁).length = 1
        · obtain ⟨w, hw⟩ := List.length_eq_one.mp hw1
          have hw₂ : tiedWinners l₂ = [w] := List.perm_singleton.mp (hw ▸ hW).symm
          rw [hw, hw₂]
        · rw [if_neg (by simpa using hw1), if_neg (by simpa [← hWlen] using hw1)]
          have hfind : (tiedWinners l₁).find? (fun p => p.1 == cur)
              = (tiedWinners l₂).find? (fun p => p.1 == cur) := by
            refine find?_eq_of_perm_of_unique hW fun a ha b hb hpa hpb => ?_
            rw [beq_iff_eq] at hpa hpb
            exact pair_eq_of_nodup_keys hnd a (tiedWinners_subset _ ha) b
              (tiedWinners_subset _ hb) (by rw [hpa, hpb])
          rw [hfind]
          cases hfq : (tiedWinners l₂).find? (fun p => p.1 == cur) with
          | some q => rfl
          | none =>
            have hmapperm := hW.map (fun p => p.2.content)
            have hsorteq : ((tiedWinners l₁).map (fun p => p.2.content)).insertionSort
                  (fun a b => str_le a b = true)
                = ((tiedWinners l₂).map (fun p => p.2.content)).insertionSort
                  (fun a b => str_le a b = true) :=
              List.eq_of_perm_of_sorted
                ((List.perm_insertionSort _ _).trans
                  (hmapperm.trans (List.perm_insertionSort _ _).symm))
                (List.sorted_insertionSort _ _) (List.sorted_insertionSort _ _)
            rw [hsorteq]

/-- C7: `intelligent_merge` fails (with the configuration error) exactly on
the empty version map: the empty map yields the configuration error, and
every non-empty map yields `Ok`. -/
theorem intelligent_merge_error_iff_empty
    (l : List (String × MachineVersion)) (cur : String) :
    intelligent_merge ([] : List (String × MachineVersion)) cur
        = .error (.Config "No versions available to merge")
    ∧ (l ≠ [] → ∃ s, intelligent_merge l cur = .ok s) := by
  refine ⟨rfl, fun hne => ?_⟩
  cases l with
  | nil => exact absurd rfl hne
  | cons a t =>
    unfold intelligent_merge
    repeat' split
    all_goals first
      | exact ⟨_, rfl⟩
      | (rename_i h; simp at h)

/-- Witness for C7 at concrete inputs. -/
theorem intelligent_merge_error_iff_empty_witness :
    intelligent_merge ([] : List (String × MachineVersion)) "m"
        = .error (.Config "No versions available to merge")
    ∧ ∃ s, intelligent_merge [("m1", ⟨"c", some 3⟩)] "m" = .ok s :=
  ⟨(intelligent_merge_error_iff_empty [("m1", ⟨"c", some 3⟩)] "m").1,
   (intelligent_merge_error_iff_empty [("m1", ⟨"c", some 3⟩)] "m").2 (by decide)⟩

/-- Witness for C1 at a concrete input. -/
theorem intelligent_merge_decision_order_witness :
    intelligent_merge [("a", ⟨"x", some 100⟩), ("b", ⟨"y", some 50⟩)] "b" = .ok "x" := by
  have h := (intelligent_merge_decision_order
    [("a", ⟨"x", some 100⟩), ("b", ⟨"y", some 50⟩)] "b" (by decide) (by decide)).2.2.1
  exact h "a" ⟨"x", some 100⟩ (by decide)

/-- Witness for C2 at a concrete input. -/
theorem intelligent_merge_deterministic_witness :
    intelligent_merge [("m1", ⟨"bbb", some 10⟩), ("m2", ⟨"aaa", some 10⟩)] "m3"
      = intelligent_merge [("m2", ⟨"aaa", some 10⟩), ("m1", ⟨"bbb", some 10⟩)] "m3" :=
  intelligent_merge_deterministic _ _ "m3" (List.Perm.swap _ _ _) (by decide)

/-! ### Character-list and line lemmas -/

theorem strData_append (s t : String) : (s ++ t).data = s.data ++ t.data := rfl

theorem strData_mk (l : List Char) : (String.mk l).data = l := rfl

theorem strMk_data (s : String) : String.mk s.data = s := rfl

theorem map_eq_self_pointwise {α : Type} {f : α → α} :
    ∀ {l : List α}, l.map f = l → ∀ x ∈ l, f x = x := by
  intro l
  induction l with
  | nil => intro _ x hx; cases hx
  | cons a t ih =>
    intro h x hx
    rw [List.map_cons, List.cons_eq_cons] at h
    rcases List.mem_cons.mp hx with rfl | hx
    · exact h.1
    · exact ih h.2 x hx

theorem map_data_map_mk (S : List (List Char)) :
    (S.map String.mk).map String.data = S := by
  induction S with
  | nil => rfl
  | cons s t ih => simp only [List.map_cons, strData_mk, ih]

theorem joinNL_append : ∀ A B : List (List Char), joinNL (A ++ B) = joinNL A ++ joinNL B
  | [], _ => rfl
  | a :: A', B => by simp [joinNL, joinNL_append A' B]

theorem joinNL_ends : ∀ K : List (List Char), K ≠ [] → ∃ t, joinNL K = t ++ ['\n']
  | [], h => absurd rfl h
  | [l], _ => ⟨l, rfl⟩
  | l :: k :: K', _ => by
    obtain ⟨t, ht⟩ := joinNL_ends (k :: K') (by simp)
    refine ⟨l ++ '\n' :: t, ?_⟩
    show l ++ '\n' :: joinNL (k :: K') = _
    rw [ht]
    simp

theorem ends_cons_newline (x : List Char) (rest : List Char)
    (h : rest = [] ∨ ∃ t, rest = t ++ ['\n']) :
    ∃ t, x ++ '\n' :: rest = t ++ ['\n'] := by
  rcases h with rfl | ⟨t, rfl⟩
  · exact ⟨x, rfl⟩
  · exact ⟨x ++ '\n' :: t, by simp⟩

theorem ends_append (a rest : List Char) (ha : ∃ t, a = t ++ ['\n'])
    (h : rest = [] ∨ ∃ t, rest = t ++ ['\n']) :
    ∃ t, a ++ rest = t ++ ['\n'] := by
  rcases h with rfl | ⟨t, rfl⟩
  · simpa using ha
  · exact ⟨a ++ t, by simp⟩

theorem get?_append_cons_length {α : Type} :
    ∀ (P : List α) (x : α) (R : List α), (P ++ x :: R).get? P.length = some x
  | [], _, _ => rfl
  | _ :: P', x, R => get?_append_cons_length P' x R

theorem stripCR_subset (l : List Char) : ∀ c ∈ stripCR l, c ∈ l := by
  intro c hc
  unfold stripCR at hc
  split at hc
  · exact List.dropLast_subset l hc
  · exact hc

theorem linesOfAux_no_newline :
    ∀ (s acc : List Char), '\n' ∉ acc → ∀ l ∈ linesOfAux s acc, '\n' ∉ l := by
  intro s
  induction s with
  | nil =>
    intro acc hacc l hl
    unfold linesOfAux at hl
    split at hl
    · cases hl
    · rcases List.mem_singleton.mp hl with rfl
      simpa using hacc
  | cons c cs ih =>
    intro acc hacc l hl
    unfold linesOfAux at hl
    split at hl
    · rcases List.mem_cons.mp hl with rfl | hl
      · intro hmem
        exact hacc (by simpa using stripCR_subset _ _ hmem)
      · exact ih [] (by simp) l hl
    · refine ih (c :: acc) ?_ l hl
      rename_i hc
      simp only [List.mem_cons, not_or]
      exact ⟨fun h => hc h.symm, hacc⟩

theorem linesOf_no_newline (s : List Char) : ∀ l ∈ linesOf s, '\n' ∉ l :=
  linesOfAux_no_newline s [] (by simp)

theorem linesOfAux_line (l : List Char) (hnl : '\n' ∉ l) :
    ∀ (rest acc : List Char),
      linesOfAux (l ++ '\n' :: rest) acc = stripCR (acc.reverse ++ l) :: linesOfAux rest [] := by
  induction l with
  | nil => intro rest acc; simp [linesOfAux]
  | cons c l' ih =>
    intro rest acc
    have hc : ¬ c = '\n' := fun h => hnl (by simp [h])
    have hl' : '\n' ∉ l' := fun h => hnl (List.mem_cons_of_mem c h)
    calc linesOfAux ((c :: l') ++ '\n' :: rest) acc
        = linesOfAux (l' ++ '\n' :: rest) (c :: acc) := by
          rw [List.cons_append]
          simp only [linesOfAux, if_neg hc]
      _ = stripCR ((c :: acc).reverse ++ l') :: linesOfAux rest [] := ih hl' rest (c :: acc)
      _ = stripCR (acc.reverse ++ c :: l') :: linesOfAux rest [] := by
          rw [List.reverse_cons, List.append_assoc, List.singleton_append]

theorem linesOf_joinNL :
    ∀ K : List (List Char), (∀ k ∈ K, '\n' ∉ k) → linesOf (joinNL K) = K.map stripCR := by
  intro K
  induction K with
  | nil => intro _; rfl
  | cons k K' ih =>
    intro h
    show linesOfAux (k ++ '\n' :: joinNL K') [] = _
    rw [linesOfAux_line k (h k (List.mem_cons_self k K')) (joinNL K') []]
    simp only [List.reverse_nil, List.nil_append, List.map_cons]
    rw [show linesOfAux (joinNL K') [] = linesOf (joinNL K') from rfl,
      ih (fun x hx => h x (List.mem_cons_of_mem k hx))]

/-! ### Scan lemmas for the section codec -/

theorem extractGo_none_of_no_stop (st sp : List Char) :
    ∀ L, (∀ l ∈ L, isPrefixL sp (trimL l) = false) → extractGo st sp L true = none := by
  intro L
  induction L with
  | nil => intro _; rfl
  | cons l ls ih =>
    intro h
    have hsp := h l (List.mem_cons_self l ls)
    have hrest := fun x hx => h x (List.mem_cons_of_mem l hx)
    simp only [extractGo]
    by_cases hst : isPrefixL st (trimL l) = true
    · rw [if_pos hst, ih hrest]; rfl
    · rw [if_neg hst, if_neg (by simp [hsp]), if_pos (by trivial)]
      exact ih hrest

theorem extractGo_append_none (st sp : List Char) (M : List (List Char))
    (hM : ∀ b, extractGo st sp M b = none) :
    ∀ L b, extractGo st sp (L ++ M) b = none := by
  intro L
  induction L with
  | nil => intro b; exact hM b
  | cons l L' ih =>
    intro b
    rw [List.cons_append]
    simp only [extractGo]
    by_cases h1 : isPrefixL st (trimL l) = true
    · rw [if_pos h1, ih true]; rfl
    · rw [if_neg h1]
      by_cases h2 : isPrefixL sp (trimL l) = true
      · rw [if_pos h2, ih false]; rfl
      · rw [if_neg h2]
        cases b
        · rw [if_neg (by simp), ih false]; rfl
        · rw [if_pos (by trivial)]
          exact ih true

theorem sectionsGo_none_of_no_stop (st sp : List Char) :
    ∀ L, (∀ l ∈ L, isPrefixL sp (trimL l) = false) →
      ∀ cur, sectionsGo st sp L true cur = none := by
  intro L
  induction L with
  | nil => intro _ _; rfl
  | cons l ls ih =>
    intro h cur
    have hsp := h l (List.mem_cons_self l ls)
    have hrest := fun x hx => h x (List.mem_cons_of_mem l hx)
    simp only [sectionsGo]
    by_cases hst : isPrefixL st (trimL l) = true
    · rw [if_pos hst]
      exact ih hrest _
    · rw [if_neg hst, if_neg (by simp [hsp]), if_pos (by trivial)]
      exact ih hrest _

theorem sectionsGo_append_none (st sp : List Char) (M : List (List Char))
    (hM : ∀ b cur, sectionsGo st sp M b cur = none) :
    ∀ L b cur, sectionsGo st sp (L ++ M) b cur = none := by
  intro L
  induction L with
  | nil => intro b cur; exact hM b cur
  | cons l L' ih =>
    intro b cur
    rw [List.cons_append]
    simp only [sectionsGo]
    by_cases h1 : isPrefixL st (trimL l) = true
    · rw [if_pos h1]
      exact ih true _
    · rw [if_neg h1]
      by_cases h2 : isPrefixL sp (trimL l) = true
      · rw [if_pos h2, ih false _]; rfl
      · rw [if_neg h2]
        cases b
        · rw [if_neg (by simp)]
          exact ih false _
        · rw [if_pos (by trivial)]
          exact ih true _

/-- C4: a start tag with no stop tag anywhere after it before end-of-input
makes both `extract_syncable_content` and (through the internal
`extract_exclude_sections` of its local argument) `merge_synced_content`
return the malformed-content error; in particular neither returns `Ok`. -/
theorem unclosed_start_tag_is_error (content synced comment_syn : String)
    (h : ∃ L1 s L2, linesOf content.data = L1 ++ s :: L2
      ∧ isPrefixL (comment_syn ++ " drifters::exclude::start").data (trimL s) = true
      ∧ ∀ l ∈ L2,
          isPrefixL (comment_syn ++ " drifters::exclude::stop").data (trimL l) = false) :
    extract_syncable_content content comment_syn
      = .error (.Config
        "unclosed drifters::exclude::start block (missing drifters::exclude::stop)")
    ∧ merge_synced_content content synced comment_syn
      = .error (.Config
        "unclosed drifters::exclude::start block (missing drifters::exclude::stop)") := by
  obtain ⟨L1, s, L2, hsplit, hs, hL2⟩ := h
  have hM : ∀ b, extractGo (comment_syn ++ " drifters::exclude::start").data
      (comment_syn ++ " drifters::exclude::stop").data (s :: L2) b = none := by
    intro b
    simp only [extractGo]
    rw [if_pos hs, extractGo_none_of_no_stop _ _ L2 hL2]
    rfl
  have hex : extractGo (comment_syn ++ " drifters::exclude::start").data
      (comment_syn ++ " drifters::exclude::stop").data (linesOf content.data) false = none := by
    rw [hsplit]
    exact extractGo_append_none _ _ (s :: L2) hM L1 false
  have hMs : ∀ b cur, sectionsGo (comment_syn ++ " drifters::exclude::start").data
      (comment_syn ++ " drifters::exclude::stop").data (s :: L2) b cur = none := by
    intro b cur
    simp only [sectionsGo]
    rw [if_pos hs]
    exact sectionsGo_none_of_no_stop _ _ L2 hL2 _
  have hsec : sectionsGo (comment_syn ++ " drifters::exclude::start").data
      (comment_syn ++ " drifters::exclude::stop").data (linesOf content.data) false []
      = none := by
    rw [hsplit]
    exact sectionsGo_append_none _ _ (s :: L2) hMs L1 false []
  constructor
  · simp only [extract_syncable_content]
    rw [hex]
  · simp only [merge_synced_content, extract_exclude_sections]
    rw [hsec]

/-- Witness for C4 at a concrete input. -/
theorem unclosed_start_tag_is_error_witness :
    extract_syncable_content "# drifters::exclude::start\nX\n" "#"
      = .error (.Config
        "unclosed drifters::exclude::start block (missing drifters::exclude::stop)")
    ∧ merge_synced_content "# drifters::exclude::start\nX\n" "ok\n" "#"
      = .error (.Config
        "unclosed drifters::exclude::start block (missing drifters::exclude::stop)") :=
  unclosed_start_tag_is_error "# drifters::exclude::start\nX\n" "ok\n" "#"
    ⟨[], "# drifters::exclude::start".data, ["X".data], by decide, by decide, by decide⟩

theorem extractGo_keeps_starts (st sp : List Char) :
    ∀ L b K, extractGo st sp L b = some K →
      ∀ l ∈ L, isPrefixL st (trimL l) = true → l ∈ K := by
  intro L
  induction L with
  | nil => intro b K _ l hl; cases hl
  | cons l₀ ls ih =>
    intro b K h l hl htag
    simp only [extractGo] at h
    by_cases h1 : isPrefixL st (trimL l₀) = true
    · rw [if_pos h1] at h
      cases hrec : extractGo st sp ls true with
      | none => rw [hrec] at h; cases h
      | some K' =>
        rw [hrec] at h
        obtain rfl : l₀ :: K' = K := by simpa using h
        rcases List.mem_cons.mp hl with rfl | hl'
        · exact List.mem_cons_self _ _
        · exact List.mem_cons_of_mem _ (ih true K' hrec l hl' htag)
    · rw [if_neg h1] at h
      rcases List.mem_cons.mp hl with rfl | hl'
      · exact absurd htag h1
      · by_cases h2 : isPrefixL sp (trimL l₀) = true
        · rw [if_pos h2] at h
          cases hrec : extractGo st sp ls false with
          | none => rw [hrec] at h; cases h
          | some K' =>
            rw [hrec] at h
            obtain rfl : l₀ :: K' = K := by simpa using h
            exact List.mem_cons_of_mem _ (ih false K' hrec l hl' htag)
        · rw [if_neg h2] at h
          cases b
          · rw [if_neg (by simp)] at h
            cases hrec : extractGo st sp ls false with
            | none => rw [hrec] at h; cases h
            | some K' =>
              rw [hrec] at h
              obtain rfl : l₀ :: K' = K := by simpa using h
              exact List.mem_cons_of_mem _ (ih false K' hrec l hl' htag)
          · rw [if_pos (by trivial)] at h
            exact ih true K h l hl' htag

theorem sectionsGo_sections_end (st sp : List Char) :
    ∀ L b cur S, sectionsGo st sp L b cur = some S →
      ∀ sec ∈ S, ∃ t, sec = t ++ ['\n'] := by
  intro L
  induction L with
  | nil =>
    intro b cur S h sec hsec
    simp only [sectionsGo] at h
    cases b
    · rw [if_neg (by simp)] at h
      obtain rfl : ([] : List (List Char)) = S := by simpa using h
      cases hsec
    · rw [if_pos (by trivial)] at h
      cases h
  | cons l ls ih =>
    intro b cur S h sec hsec
    simp only [sectionsGo] at h
    by_cases h1 : isPrefixL st (trimL l) = true
    · rw [if_pos h1] at h
      exact ih true _ S h sec hsec
    · rw [if_neg h1] at h
      by_cases h2 : isPrefixL sp (trimL l) = true
      · rw [if_pos h2] at h
        cases hrec : sectionsGo st sp ls false (cur ++ l ++ ['\n']) with
        | none => rw [hrec] at h; cases h
        | some S' =>
          rw [hrec] at h
          obtain rfl : (cur ++ l ++ ['\n']) :: S' = S := by simpa using h
          rcases List.mem_cons.mp hsec with rfl | hsec'
          · exact ⟨cur ++ l, rfl⟩
          · exact ih false _ S' hrec sec hsec'
      · rw [if_neg h2] at h
        cases b
        · rw [if_neg (by simp)] at h
          exact ih false _ S h sec hsec
        · rw [if_pos (by trivial)] at h
          exact ih true _ S h sec hsec

theorem mergeGo_ends (st sp : List Char) (excl : List (List Char))
    (hexcl : ∀ sec ∈ excl, ∃ t, sec = t ++ ['\n']) :
    ∀ L b idx, mergeGo st sp excl L b idx = []
      ∨ ∃ t, mergeGo st sp excl L b idx = t ++ ['\n'] := by
  intro L
  induction L with
  | nil => intro b idx; left; rfl
  | cons l ls ih =>
    intro b idx
    simp only [mergeGo]
    by_cases h1 : isPrefixL st (trimL l) = true
    · rw [if_pos h1]
      cases hg : excl.get? idx with
      | some sec =>
        right
        exact ends_append sec _ (hexcl sec (List.get?_mem hg)) (ih true (idx + 1))
      | none =>
        right
        exact ends_cons_newline l _ (ih true idx)
    · rw [if_neg h1]
      by_cases h2 : isPrefixL sp (trimL l) = true
      · rw [if_pos h2]
        by_cases h3 : 0 < idx ∧ (excl.get? (idx - 1)).isSome
        · rw [if_pos h3]
          exact ih false idx
        · rw [if_neg h3]
          right
          exact ends_cons_newline l _ (ih false idx)
      · rw [if_neg h2]
        cases b
        · rw [if_neg (by simp)]
          right
          exact ends_cons_newline l _ (ih false idx)
        · rw [if_pos (by trivial)]
          exact ih true idx

/-- C10 counterexample: `merge_synced_content` on empty inputs returns
`Ok("")`, and the empty string does not end with a newline — so "the output
always ends with a newline" fails as stated. -/
theorem merge_synced_content_empty_no_newline :
    merge_synced_content "" "" "#" = .ok ""
    ∧ ¬ ∃ t : String, ("" : String) = t ++ "\n" := by
  refine ⟨by decide, ?_⟩
  rintro ⟨t, ht⟩
  have h2 := congrArg String.data ht
  rw [strData_append, show ("" : String).data = [] from rfl,
    show ("\n" : String).data = ['\n'] from rfl] at h2
  exact absurd h2.symm (by simp)

/-- C10 (amended): every `Ok (some _)` output of `extract_syncable_content`
ends with a newline, and every non-empty `Ok` output of
`merge_synced_content` ends with a newline (the output is empty exactly when
the incoming synced content is empty). -/
theorem codec_appends_final_newline :
    (∀ content comment_syn s,
      extract_syncable_content content comment_syn = .ok (some s) →
        ∃ t, s = t ++ "\n")
    ∧ (∀ loc syn comment_syn out,
      merge_synced_content loc syn comment_syn = .ok out → out ≠ "" →
        ∃ t, out = t ++ "\n") := by
  constructor
  · intro content comment_syn s h
    simp only [extract_syncable_content] at h
    split at h
    · cases h
    · rename_i kept hex
      split at h
      · rename_i hany
        obtain rfl : String.mk (joinNL kept) = s := by simpa using h
        obtain ⟨l, hl, htag⟩ := List.any_eq_true.mp hany
        have hmem : l ∈ kept := extractGo_keeps_starts _ _ _ _ _ hex l hl htag
        have hne : kept ≠ [] := fun hk => by rw [hk] at hmem; cases hmem
        obtain ⟨t, ht⟩ := joinNL_ends kept hne
        exact ⟨String.mk t, String.data_inj ht⟩
      · cases h
  · intro loc syn comment_syn out h hne
    simp only [merge_synced_content, extract_exclude_sections] at h
    split at h
    · rename_i e heq
      split at heq
      · cases h
      · cases heq
    · rename_i local_excludes heq
      split at heq
      · cases heq
      · rename_i S hsec
        obtain rfl : List.map String.mk S = local_excludes := by simpa using heq
        rw [map_data_map_mk] at h
        obtain rfl : String.mk (mergeGo (comment_syn ++ " drifters::exclude::start").data
            (comment_syn ++ " drifters::exclude::stop").data S (linesOf syn.data) false 0)
            = out := by simpa using h
        have hS := sectionsGo_sections_end _ _ _ _ _ _ hsec
        rcases mergeGo_ends _ _ S hS (linesOf syn.data) false 0 with hmul | ⟨t, ht⟩
        · exact absurd ((congrArg String.mk hmul).trans rfl) hne
        · exact ⟨String.mk t, String.data_inj ht⟩

/-- Witness for the amended C10 at concrete inputs. -/
theorem codec_appends_final_newline_witness :
    (∃ t, ("# drifters::exclude::start\n# drifters::exclude::stop\n" : String) = t ++ "\n")
    ∧ ∃ t, ("A\n" : String) = t ++ "\n" :=
  ⟨codec_appends_final_newline.1 "# drifters::exclude::start\n# drifters::exclude::stop"
      "#" _ (by decide),
   codec_appends_final_newline.2 "" "A\n" "#" "A\n" (by decide) (by decide)⟩

theorem extractGo_nontag_id (st sp : List Char) :
    ∀ L, (∀ l ∈ L, isPrefixL st (trimL l) = false ∧ isPrefixL sp (trimL l) = false) →
      extractGo st sp L false = some L := by
  intro L
  induction L with
  | nil => intro _; rfl
  | cons l ls ih =>
    intro h
    obtain ⟨h1, h2⟩ := h l (List.mem_cons_self l ls)
    simp only [extractGo]
    rw [if_neg (by simp [h1]), if_neg (by simp [h2]), if_neg (by simp),
      ih (fun x hx => h x (List.mem_cons_of_mem l hx))]
    rfl

theorem extractGo_skip_body (st sp : List Char) :
    ∀ body M,
      (∀ b ∈ body, isPrefixL st (trimL b) = false ∧ isPrefixL sp (trimL b) = false) →
      extractGo st sp (body ++ M) true = extractGo st sp M true := by
  intro body
  induction body with
  | nil => intro M _; rfl
  | cons b body' ih =>
    intro M hb
    obtain ⟨h1, h2⟩ := hb b (List.mem_cons_self b body')
    rw [List.cons_append]
    simp only [extractGo]
    rw [if_neg (by simp [h1]), if_neg (by simp [h2]), if_pos (by trivial)]
    exact ih M (fun x hx => hb x (List.mem_cons_of_mem b hx))

theorem sectionsGo_skip_body (st sp : List Char) :
    ∀ body M cur,
      (∀ b ∈ body, isPrefixL st (trimL b) = false ∧ isPrefixL sp (trimL b) = false) →
      sectionsGo st sp (body ++ M) true cur = sectionsGo st sp M true (cur ++ joinNL body) := by
  intro body
  induction body with
  | nil =>
    intro M cur _
    show sectionsGo st sp M true cur = sectionsGo st sp M true (cur ++ joinNL [])
    rw [show joinNL [] = [] from rfl, List.append_nil]
  | cons b body' ih =>
    intro M cur hb
    obtain ⟨h1, h2⟩ := hb b (List.mem_cons_self b body')
    rw [List.cons_append]
    simp only [sectionsGo]
    rw [if_neg (by simp [h1]), if_neg (by simp [h2]), if_pos (by trivial),
      ih M (cur ++ b ++ ['\n']) (fun x hx => hb x (List.mem_cons_of_mem b hx))]
    have heq : (cur ++ b ++ ['\n']) ++ joinNL body' = cur ++ joinNL (b :: body') := by
      show (cur ++ b ++ ['\n']) ++ joinNL body' = cur ++ (b ++ '\n' :: joinNL body')
      simp [List.append_assoc]
    rw [heq]

/-- `wf_roundtrip`: on well-formed lines, the three scans of the codec agree:
extraction succeeds keeping exactly the non-body lines, section extraction
succeeds (independently of the incoming accumulator), and re-merging the kept
lines against the extracted sections reproduces the original lines. -/
theorem wf_roundtrip (st sp : List Char) :
    ∀ L, WFLines st sp L →
      ∃ K S, extractGo st sp L false = some K
        ∧ (∀ k ∈ K, k ∈ L)
        ∧ (∀ cur, sectionsGo st sp L false cur = some S)
        ∧ ∀ P : List (List Char), mergeGo st sp (P ++ S) K false P.length = joinNL L := by
  intro L hwf
  induction hwf with
  | nil =>
    refine ⟨[], [], rfl, fun k hk => (by cases hk), fun cur => rfl, fun P => rfl⟩
  | other h1 h2 hwf ih =>
    rename_i l ls
    obtain ⟨K, S, hK, hKmem, hS, hM⟩ := ih
    refine ⟨l :: K, S, ?_, ?_, ?_, ?_⟩
    · simp only [extractGo]
      rw [if_neg (by simp [h1]), if_neg (by simp [h2]), if_neg (by simp), hK]
      rfl
    · intro k hk
      rcases List.mem_cons.mp hk with rfl | hk'
      · exact List.mem_cons_self _ _
      · exact List.mem_cons_of_mem _ (hKmem k hk')
    · intro cur
      simp only [sectionsGo]
      rw [if_neg (by simp [h1]), if_neg (by simp [h2]), if_neg (by simp)]
      exact hS cur
    · intro P
      simp only [mergeGo]
      rw [if_neg (by simp [h1]), if_neg (by simp [h2]), if_neg (by simp), hM P]
      rfl
  | block hs hb hest hesp hwf ih =>
    rename_i s body e rest
    obtain ⟨K, S, hK, hKmem, hS, hM⟩ := ih
    refine ⟨s :: e :: K, joinNL (s :: (body ++ [e])) :: S, ?_, ?_, ?_, ?_⟩
    · simp only [extractGo]
      rw [if_pos hs, extractGo_skip_body st sp body (e :: rest) hb]
      simp only [extractGo]
      rw [if_neg (by simp [hest]), if_pos hesp, hK]
      rfl
    · intro k hk
      rcases List.mem_cons.mp hk with rfl | hk'
      · exact List.mem_cons_self _ _
      · rcases List.mem_cons.mp hk' with rfl | hk''
        · exact List.mem_cons_of_mem _ (List.mem_append_right body (List.mem_cons_self _ _))
        · exact List.mem_cons_of_mem _
            (List.mem_append_right body (List.mem_cons_of_mem _ (hKmem k hk'')))
    · intro cur
      simp only [sectionsGo]
      rw [if_pos hs, sectionsGo_skip_body st sp body (e :: rest) (s ++ ['\n']) hb]
      simp only [sectionsGo]
      rw [if_neg (by simp [hest]), if_pos hesp, hS _]
      have heq : ((s ++ ['\n']) ++ joinNL body) ++ e ++ ['\n'] = joinNL (s :: (body ++ [e])) := by
        show ((s ++ ['\n']) ++ joinNL body) ++ e ++ ['\n'] = s ++ '\n' :: joinNL (body ++ [e])
        rw [joinNL_append]
        show _ = s ++ '\n' :: (joinNL body ++ (e ++ '\n' :: []))
        simp [List.append_assoc]
      rw [heq]
      rfl
    · intro P
      simp only [mergeGo]
      rw [if_pos hs, get?_append_cons_length]
      simp only [mergeGo]
      rw [if_neg (by simp [hest]), if_pos hesp,
        if_pos ⟨Nat.succ_pos _, by rw [Nat.add_sub_cancel, get?_append_cons_length]; rfl⟩]
      have hM' := hM (P ++ [joinNL (s :: (body ++ [e]))])
      rw [List.append_assoc, List.singleton_append, List.length_append,
        List.length_singleton] at hM'
      show joinNL (s :: (body ++ [e]))
          ++ mergeGo st sp (P ++ joinNL (s :: (body ++ [e])) :: S) K false (P.length + 1)
        = joinNL (s :: (body ++ e :: rest))
      rw [hM']
      rw [← joinNL_append]
      congr 1
      simp

/-- C3 counterexample: a well-formed local content (one start tag matched by
one stop tag) without a trailing newline.  `extract_syncable_content` returns
the tag lines with a trailing newline, and `merge_synced_content` of the
local content with that extraction returns the newline-terminated text — not
the original local content, so the round trip as claimed fails. -/
theorem roundtrip_fails_without_trailing_newline :
    extract_syncable_content "# drifters::exclude::start\n# drifters::exclude::stop" "#"
      = .ok (some "# drifters::exclude::start\n# drifters::exclude::stop\n")
    ∧ merge_synced_content "# drifters::exclude::start\n# drifters::exclude::stop"
        "# drifters::exclude::start\n# drifters::exclude::stop\n" "#"
      = .ok "# drifters::exclude::start\n# drifters::exclude::stop\n"
    ∧ ("# drifters::exclude::start\n# drifters::exclude::stop\n" : String)
      ≠ "# drifters::exclude::start\n# drifters::exclude::stop" :=
  ⟨by decide, by decide, by decide⟩

/-- C3 (amended): (a) content without exclude-tag lines extracts to `Ok None`;
(b) for local content that is a sequence of newline-terminated lines
(`joinNL (linesOf local) = local`, which also rules out `\r\n` endings) whose
exclude tags are well formed in the strict alternating sense (`WFLines`) and
that contains at least one start tag, extraction yields `Ok (Some s)` and
merging `s` back into the local content reproduces the local content
exactly. -/
theorem extract_merge_roundtrip (content loc comment_syn : String) :
    ((∀ l ∈ linesOf content.data,
        isPrefixL (comment_syn ++ " drifters::exclude::start").data (trimL l) = false
        ∧ isPrefixL (comment_syn ++ " drifters::exclude::stop").data (trimL l) = false) →
      extract_syncable_content content comment_syn = .ok none)
    ∧ (WFLines (comment_syn ++ " drifters::exclude::start").data
          (comment_syn ++ " drifters::exclude::stop").data (linesOf loc.data) →
        joinNL (linesOf loc.data) = loc.data →
        (∃ l ∈ linesOf loc.data,
          isPrefixL (comment_syn ++ " drifters::exclude::start").data (trimL l) = true) →
        ∃ s, extract_syncable_content loc comment_syn = .ok (some s)
          ∧ merge_synced_content loc s comment_syn = .ok loc) := by
  constructor
  · intro h
    simp only [extract_syncable_content]
    rw [extractGo_nontag_id _ _ _ h]
    show (if _ then _ else _) = _
    rw [if_neg ?_]
    · rintro hany
      obtain ⟨l, hl, htag⟩ := List.any_eq_true.mp hany
      rw [(h l hl).1] at htag
      cases htag
  · intro hwf hjoin hex
    obtain ⟨K, S, hK, hKmem, hS, hM⟩ := wf_roundtrip _ _ _ hwf
    have hany : (linesOf loc.data).any
        (fun l => isPrefixL (comment_syn ++ " drifters::exclude::start").data (trimL l))
        = true := by
      obtain ⟨l, hl, ht⟩ := hex
      exact List.any_eq_true.mpr ⟨l, hl, ht⟩
    have hLid : (linesOf loc.data).map stripCR = linesOf loc.data := by
      conv_rhs => rw [← hjoin]
      rw [linesOf_joinNL _ (linesOf_no_newline loc.data)]
    have hKstrip : ∀ k ∈ K, stripCR k = k :=
      fun k hk => map_eq_self_pointwise hLid k (hKmem k hk)
    have hKlines : linesOf (joinNL K) = K := by
      rw [linesOf_joinNL K (fun k hk => linesOf_no_newline loc.data k (hKmem k hk))]
      exact (List.map_congr_left hKstrip).trans (List.map_id K)
    refine ⟨String.mk (joinNL K), ?_, ?_⟩
    · simp only [extract_syncable_content]
      rw [hK]
      show (if _ then _ else _) = _
      rw [if_pos hany]
    · simp only [merge_synced_content, extract_exclude_sections]
      rw [hS []]
      show Except.ok (String.mk (mergeGo
          (comment_syn ++ " drifters::exclude::start").data
          (comment_syn ++ " drifters::exclude::stop").data
          ((S.map String.mk).map String.data)
          (linesOf (String.mk (joinNL K)).data) false 0)) = Except.ok loc
      rw [map_data_map_mk, show (String.mk (joinNL K)).data = joinNL K from rfl, hKlines]
      have hM0 := hM []
      rw [List.nil_append] at hM0
      rw [show ([] : List (List Char)).length = 0 from rfl] at hM0
      rw [hM0, hjoin, strMk_data]

/-- Witness for the amended C3 at concrete inputs. -/
theorem extract_merge_roundtrip_witness :
    extract_syncable_content "shared\n" "#" = .ok none
    ∧ ∃ s, extract_syncable_content
        "a\n# drifters::exclude::start\nX\n# drifters::exclude::stop\nb\n" "#" = .ok (some s)
      ∧ merge_synced_content
          "a\n# drifters::exclude::start\nX\n# drifters::exclude::stop\nb\n" s "#"
        = .ok "a\n# drifters::exclude::start\nX\n# drifters::exclude::stop\nb\n" := by
  constructor
  · exact (extract_merge_roundtrip "shared\n" "x" "#").1 (by decide)
  · refine (extract_merge_roundtrip "x"
      "a\n# drifters::exclude::start\nX\n# drifters::exclude::stop\nb\n" "#").2 ?_
      (by decide) (by decide)
    rw [show linesOf
        ("a\n# drifters::exclude::start\nX\n# drifters::exclude::stop\nb\n" : String).data
      = ["a".data, "# drifters::exclude::start".data, "X".data,
         "# drifters::exclude::stop".data, "b".data] from by decide]
    exact .other (by decide) (by decide)
      (@WFLines.block ("#" ++ " drifters::exclude::start").data
        ("#" ++ " drifters::exclude::stop").data
        "# drifters::exclude::start".data ["X".data] "# drifters::exclude::stop".data
        ["b".data] (by decide) (by decide) (by decide) (by decide)
        (.other (by decide) (by decide) .nil))

/-- C5 evaluation at the failing input: the local content has one exclude
section, the incoming content has two (empty-bodied) tagged sections.  At the
second start tag there is no local section at ordinal position 2, so the spec
says the incoming start line, empty body, and stop line all appear in the
output.  The code emits the start line but then drops the matching stop line
(its `exclude_index > 0 && local_excludes.get(exclude_index - 1).is_some()`
test looks at the previously substituted section, not the current block), so
the output ends after the second start tag and the exclude tags in the output
are unbalanced. -/
theorem merge_fallback_drops_stop_tag :
    merge_synced_content
      "# drifters::exclude::start\nA\n# drifters::exclude::stop\n"
      "# drifters::exclude::start\n# drifters::exclude::stop\n# drifters::exclude::start\n# drifters::exclude::stop\n"
      "#"
    = .ok
      "# drifters::exclude::start\nA\n# drifters::exclude::stop\n# drifters::exclude::start\n"
    := by decide

/-! ### Fileset resolver lemmas -/

theorem globChars_refl : ∀ x : List Char, '*' ∉ x → '?' ∉ x → globChars x x = true
  | [], _, _ => rfl
  | c :: cs, hstar, hq => by
    have h1 : c ≠ '*' := fun h => hstar (h ▸ List.mem_cons_self _ _)
    have h2 : c ≠ '?' := fun h => hq (h ▸ List.mem_cons_self _ _)
    simp only [globChars]
    rw [if_neg h1, if_neg h2]
    simp [globChars_refl cs (fun h => hstar (List.mem_cons_of_mem _ h))
      (fun h => hq (List.mem_cons_of_mem _ h))]

theorem dedupConsec_sublist : ∀ l : List String, List.Sublist (dedupConsec l) l
  | [] => .slnil
  | [a] => (List.Sublist.refl [a])
  | a :: b :: rest => by
    simp only [dedupConsec]
    by_cases h : a = b
    · rw [if_pos h]
      exact (dedupConsec_sublist (b :: rest)).cons a
    · rw [if_neg h]
      exact (dedupConsec_sublist (b :: rest)).cons₂ a

theorem dedupConsec_nodup :
    ∀ l : List String, List.Sorted (fun a b => str_le a b = true) l → (dedupConsec l).Nodup
  | [], _ => List.nodup_nil
  | [a], _ => List.nodup_singleton a
  | a :: b :: rest, hs => by
    simp only [dedupConsec]
    have hs' := hs.of_cons
    by_cases h : a = b
    · rw [if_pos h]
      exact dedupConsec_nodup (b :: rest) hs'
    · rw [if_neg h]
      refine List.nodup_cons.mpr ⟨?_, dedupConsec_nodup (b :: rest) hs'⟩
      intro hmem
      have hmem' : a ∈ b :: rest := (dedupConsec_sublist (b :: rest)).subset hmem
      have hab : str_le a b = true := List.rel_of_sorted_cons hs b (List.mem_cons_self b rest)
      have hba : str_le b a = true := by
        rcases List.mem_cons.mp hmem' with rfl | hmem''
        · exact absurd rfl h
        · exact List.rel_of_sorted_cons hs' a hmem''
      exact h (String.data_inj (leChars_antisymm _ _ hab hba))

/-- C6 part (a) as a standalone fact: no resolved path matches any exclude
pattern from the three combined tiers, under either the glob test or the
substring test (`matches_any_pattern` is their disjunction over the combined
exclude list). -/
theorem resolve_fileset_not_excluded (home : String) (fsGlob : String → List String)
    (app_config : AppConfig) (machine_id os : String) :
    ∀ p ∈ resolve_fileset home fsGlob app_config machine_id os,
      matches_any_pattern home p (combined_excludes app_config machine_id os) = false := by
  intro p hp
  have hp1 := (dedupConsec_sublist _).subset hp
  have hp2 := (List.perm_insertionSort (fun a b => str_le a b = true) _).subset hp1
  obtain ⟨pattern, _, hmem⟩ := List.mem_flatMap.mp hp2
  have hkeep := (List.mem_filter.mp hmem).2
  simpa using hkeep

/-- C6: (a) the resolved fileset contains no path matching any exclude
pattern drawn from the three tiers, under either the glob test on the
tilde-expanded pattern or the substring test on the raw pattern; (b) the
returned paths are sorted and deduplicated; (c) in particular, with app
include `["~/t/*.txt"]` and a machine-override exclude `["~/t/secret.txt"]`,
the resolved set never contains `secret.txt` (for a home directory free of
glob metacharacters). -/
theorem resolve_fileset_spec (home : String) (fsGlob : String → List String)
    (app_config : AppConfig) (machine_id os : String)
    (hhome : '*' ∉ home.data ∧ '?' ∉ home.data) :
    (∀ p ∈ resolve_fileset home fsGlob app_config machine_id os,
      matches_any_pattern home p (combined_excludes app_config machine_id os) = false)
    ∧ List.Sorted (fun a b => str_le a b = true)
        (resolve_fileset home fsGlob app_config machine_id os)
    ∧ (resolve_fileset home fsGlob app_config machine_id os).Nodup
    ∧ (home ++ "/t/secret.txt")
        ∉ resolve_fileset home fsGlob (secret_app machine_id) machine_id os := by
  refine ⟨resolve_fileset_not_excluded home fsGlob app_config machine_id os, ?_, ?_, ?_⟩
  · exact (List.sorted_insertionSort _ _).sublist (dedupConsec_sublist _)
  · exact dedupConsec_nodup _ (List.sorted_insertionSort _ _)
  · intro hmem
    have hfalse := resolve_fileset_not_excluded home fsGlob (secret_app machine_id)
      machine_id os _ hmem
    have hexcl : combined_excludes (secret_app machine_id) machine_id os
        = ["~/t/secret.txt"] := by
      unfold combined_excludes secret_app
      rw [show List.find? (fun p => p.1 == machine_id)
          [(machine_id, (⟨[], ["~/t/secret.txt"]⟩ : MachineOverride))]
          = some (machine_id, ⟨[], ["~/t/secret.txt"]⟩) from by simp]
      split <;> rfl
    have hexp : expand_tilde home "~/t/secret.txt" = home ++ "/t/secret.txt" := by
      unfold expand_tilde
      rw [if_pos (by decide)]
      apply String.data_inj
      show ((home ++ "/") ++ String.mk ("~/t/secret.txt".data.drop 2)).data
        = (home ++ "/t/secret.txt").data
      rw [strData_append, strData_append, strData_mk, strData_append, List.append_assoc]
      congr 1
    have hmatch : matches_any_pattern home (home ++ "/t/secret.txt")
        ["~/t/secret.txt"] = true := by
      simp only [matches_any_pattern, List.any_cons, List.any_nil, Bool.or_false]
      rw [hexp]
      have hrefl : globChars (home ++ "/t/secret.txt").data
          (home ++ "/t/secret.txt").data = true := by
        apply globChars_refl
        · rw [strData_append]
          intro hc
          rcases List.mem_append.mp hc with hc | hc
          · exact hhome.1 hc
          · revert hc; decide
        · rw [strData_append]
          intro hc
          rcases List.mem_append.mp hc with hc | hc
          · exact hhome.2 hc
          · revert hc; decide
      rw [hrefl]
      rfl
    rw [hexcl] at hfalse
    rw [hfalse] at hmatch
    cases hmatch

/-- Witness for C6 at concrete inputs. -/
theorem resolve_fileset_spec_witness :
    List.Sorted (fun a b => str_le a b = true)
      (resolve_fileset "/home/u"
        (fun _ => ["/home/u/t/secret.txt", "/home/u/t/a.txt"])
        (secret_app "m1") "m1" "linux")
    ∧ ("/home/u" ++ "/t/secret.txt")
      ∉ resolve_fileset "/home/u"
        (fun _ => ["/home/u/t/secret.txt", "/home/u/t/a.txt"])
        (secret_app "m1") "m1" "linux" :=
  ⟨(resolve_fileset_spec "/home/u" (fun _ => ["/home/u/t/secret.txt", "/home/u/t/a.txt"])
      (secret_app "m1") "m1" "linux" (by decide)).2.1,
   (resolve_fileset_spec "/home/u" (fun _ => ["/home/u/t/secret.txt", "/home/u/t/a.txt"])
      (secret_app "m1") "m1" "linux" (by decide)).2.2.2⟩

/-- C8: if the lock file exists and its mtime age strictly exceeds the
300-second staleness threshold when `acquire` runs, and no other process
interferes, the stale lock is detected, `try_acquire_lock` removes it and
immediately reacquires via the atomic create, and `acquire_lock` succeeds on
its first iteration with the caller as the new holder — no timeout error. -/
theorem stale_lock_reacquired (f : LockFile) (pid : Nat)
    (hstale : f.age_secs > LOCK_STALE_SECS) :
    is_stale_lock (some f) = true
    ∧ try_acquire_lock (some f) pid = (some ⟨pid, 0⟩, true)
    ∧ acquire_lock pid (some f) 0 = .ok (some ⟨pid, 0⟩) := by
  have h1 : is_stale_lock (some f) = true := by simp [is_stale_lock, hstale]
  have h2 : try_acquire_lock (some f) pid = (some ⟨pid, 0⟩, true) := by
    simp [try_acquire_lock, h1]
  refine ⟨h1, h2, ?_⟩
  rw [acquire_lock, h2]
  rfl

/-- Witness for C8 at a concrete input. -/
theorem stale_lock_reacquired_witness :
    is_stale_lock (some ⟨4242, 301⟩) = true
    ∧ try_acquire_lock (some ⟨4242, 301⟩) 7 = (some ⟨7, 0⟩, true)
    ∧ acquire_lock 7 (some ⟨4242, 301⟩) 0 = .ok (some ⟨7, 0⟩) :=
  stale_lock_reacquired ⟨4242, 301⟩ 7 (by decide)

end Drifters
